import Mathlib

/-!
Verification of the `concert_simple_scheduler` core against its specification.

The development shallowly embeds `resource_pool.py` and the scheduler loops of
`scheduler_node.py`.  Components of the repository that are not present under
`src/` (the `PoolResource` operations and the `PriorityQueue` contract, which
live in `rocon_scheduler_requests` / `priority_queue.py` and are only called
or tested here) are modelled from the specification; each such definition says
so in its doc comment.
-/

namespace SimpleScheduler

/-- Resource status values (`scheduler_msgs` `CurrentStatus`): MISSING,
AVAILABLE, ALLOCATED, GONE. -/
inductive ResStatus where
  | missing
  | available
  | allocated
  | gone
deriving DecidableEq

/-- A `scheduler_msgs/Resource` message: one pattern item of a request, or one
entry of a returned allocation.  `platform_info` holds the URI (possibly with
regular-expression syntax), `rapp` the requested capability. -/
structure ResourceMsg where
  platform_info : String
  rapp : String
deriving DecidableEq

instance : Inhabited ResourceMsg := ⟨⟨"", ""⟩⟩

/-- One robot tracked by the pool (`rocon_scheduler_requests` `PoolResource`):
URI, advertised capability, status and, when allocated, the owning request
uuid. -/
structure PoolResource where
  platform_info : String
  rapp : String
  status : ResStatus
  owner : Option Nat
deriving DecidableEq

/-- Modelled from the spec: the anchored regular-expression URI match used by
`PoolResource.match` (the matcher lives in `rocon_scheduler_requests`, outside
`src/`).  The embedding covers the pattern subset the spec exercises: a
trailing `.*` is a wildcard suffix, any other pattern must equal the URI
literally. -/
def uriMatch (pat : String) (uri : String) : Bool :=
  if pat.data.reverse.take 2 == ['*', '.'] then
    (pat.data.dropLast.dropLast).isPrefixOf uri.data
  else pat == uri

/-- Modelled from the spec: `PoolResource.match` — a resource fits a request
pattern iff the pattern URI fits the resource URI (anchored regex) and the
requested capability equals the resource's capability or is empty. -/
def PoolResource.matchMsg (res : PoolResource) (msg : ResourceMsg) : Bool :=
  uriMatch msg.platform_info res.platform_info
    && (msg.rapp == res.rapp || msg.rapp == "")

/-- Modelled from the spec: `PoolResource.allocate` — requires status
AVAILABLE, transitions to ALLOCATED and records the owner.  `resource_pool.py`
invokes it only on names drawn from the AVAILABLE match sets, so the
`InvalidTransition` branch is unreachable there and the embedding applies the
transition directly. -/
def PoolResource.allocateTo (r : PoolResource) (uid : Nat) : PoolResource :=
  { r with status := .allocated, owner := some uid }

/-- Modelled from the spec: `PoolResource.release` — when an owner uuid is
given it is a no-op unless it equals the recorded owner; otherwise it clears
the owner and transitions ALLOCATED back to AVAILABLE. -/
def PoolResource.releaseBy (r : PoolResource) (who : Option Nat) : PoolResource :=
  if who = none ∨ who = r.owner then
    { r with owner := none,
             status := if r.status = .allocated then .available else r.status }
  else r

/-- The resource pool contents: the by-URI mapping `ResourcePool.pool`,
embedded as a list of resources in dict insertion order (URIs are unique). -/
abbrev Pool := List PoolResource

/-- The part of a scheduler request object that `resource_pool.py` consumes:
`get_uuid()`, the pattern list `msg.resources`, and the recorded
`allocations`. -/
structure SchedRequest where
  uuid : Nat
  resources : List ResourceMsg
  allocations : List ResourceMsg
deriving DecidableEq

namespace ResourcePool

/-- Update the pool entry with the given URI (`self.pool[name]` followed by a
mutating method call).  URIs are unique keys, so mapping over the list touches
the one corresponding entry. -/
def poolModify (pool : Pool) (nm : String) (f : PoolResource → PoolResource) : Pool :=
  pool.map (fun r => if r.platform_info = nm then f r else r)

/-- Embeds `ResourcePool._match_subset`: the names of all AVAILABLE pool resources
matching one requested item.  The Python collects them into a `set`; the
embedding keeps them as a list in pool (dict insertion) order, standing in for
the set's iteration order. -/
def match_subset (pool : Pool) (msg : ResourceMsg) : List String :=
  (pool.filter (fun r => r.status == ResStatus.available && r.matchMsg msg)).map
    (fun r => r.platform_info)

/-- Embeds `ResourcePool._match_list`: the match set of every requested item, in item
order; the empty list is the failure sentinel returned as soon as any item has
an empty match set (so the result is also empty for an empty request). -/
def match_list (pool : Pool) (resources : List ResourceMsg) : List (List String) :=
  let matchSets := resources.map (match_subset pool)
  if matchSets.any List.isEmpty then [] else matchSets

/-- The inner loop of `_allocate_permutation`: the first name of one match set
not yet allocated (`for name in match sets of i: if name not in names_allocated`). -/
def pickName (names : List String) (used : List String) : Option String :=
  names.find? (fun n => !used.contains n)

/-- The greedy search of `_allocate_permutation`: walk the indices in
permutation order, picking for each the first still-free name of its match
set; `none` when some index has no free name left (the `else: return []`
branch).  Returns the (index, name) assignments. -/
def greedyAssign : List Nat → List (List String) → List String → Option (List (Nat × String))
  | [], _, _ => some []
  | i :: rest, matchSets, used =>
    match pickName (matchSets.getD i []) used with
    | none => none
    | some nm =>
      (greedyAssign rest matchSets (used ++ [nm])).map (fun tail => (i, nm) :: tail)

/-- Build the returned allocation: a copy of the request's pattern list with
`alloc[i].platform_info = name` applied for each assignment. -/
def applyAssign : List ResourceMsg → List (Nat × String) → List ResourceMsg
  | alloc, [] => alloc
  | alloc, p :: rest =>
    applyAssign (alloc.set p.1 { alloc.getD p.1 default with platform_info := p.2 }) rest

/-- The commit loop of `_allocate_permutation`: allocate every chosen pool
resource to the request (`self.pool[resource.platform_info].allocate(req_id)`). -/
def commitAlloc (uid : Nat) : Pool → List ResourceMsg → Pool
  | pool, [] => pool
  | pool, res :: rest =>
    commitAlloc uid (poolModify pool res.platform_info (fun r => r.allocateTo uid)) rest

/-- Embeds `ResourcePool._allocate_permutation`: try one permutation of the request's
indices; on greedy success commit the chosen resources and return the resolved
allocation, otherwise return the empty list with the pool untouched. -/
def allocate_permutation (pool : Pool) (perm : List Nat) (request : SchedRequest)
    (matchSets : List (List String)) : List ResourceMsg × Pool :=
  match greedyAssign perm matchSets [] with
  | none => ([], pool)
  | some pairs =>
    let alloc := applyAssign request.resources pairs
    (alloc, commitAlloc request.uuid pool alloc)

/-- The permutations of a list in `itertools.permutations` order: each element
in turn as head, lexicographic for an already-sorted input such as
`range(n)`. -/
def lexPermsAux : Nat → List Nat → List (List Nat)
  | 0, _ => [[]]
  | fuel + 1, l => l.flatMap (fun x => (lexPermsAux fuel (l.erase x)).map (fun p => x :: p))

/-- Embeds `itertools.permutations(l)` as a list of index lists. -/
def lexPerms (l : List Nat) : List (List Nat) :=
  lexPermsAux l.length l

/-- The permutation retry loop of `allocate`: first permutation that allocates
everything wins; the empty list (with the pool unchanged) when all fail. -/
def tryPerms (pool : Pool) (perms : List (List Nat)) (request : SchedRequest)
    (matchSets : List (List String)) : List ResourceMsg × Pool :=
  match perms with
  | [] => ([], pool)
  | p :: rest =>
    let a := allocate_permutation pool p request matchSets
    if a.1.isEmpty then tryPerms pool rest request matchSets else a

/-- Embeds `ResourcePool.allocate`: the full allocation attempt — match sets, the
union cardinality test, greedy in requested order, and for at most three items
the retry over every non-identity permutation. -/
def allocate (pool : Pool) (request : SchedRequest) : List ResourceMsg × Pool :=
  let n_wanted := request.resources.length
  let matchSets := match_list pool request.resources
  if matchSets.isEmpty then ([], pool)
  else
    let match_union := matchSets.flatten.dedup
    if match_union.length < n_wanted then ([], pool)
    else
      let idAttempt := allocate_permutation pool (List.range n_wanted) request matchSets
      if !idAttempt.1.isEmpty then idAttempt
      else if n_wanted > 3 then ([], pool)
      else tryPerms pool ((lexPerms (List.range n_wanted)).drop 1) request matchSets

/-- The loop of `release_request`: release each recorded resource, passing the
request's uuid as the owner. -/
def release_request_loop (rq_id : Nat) : Pool → List ResourceMsg → Pool
  | pool, [] => pool
  | pool, res :: rest =>
    release_request_loop rq_id
      (poolModify pool res.platform_info (fun r => r.releaseBy (some rq_id))) rest

/-- Embeds `ResourcePool.release_request`: release every resource recorded in the
request's allocations, passing the request's uuid as the owner. -/
def release_request (pool : Pool) (request : SchedRequest) : Pool :=
  release_request_loop request.uuid pool request.allocations

/-- Embeds `ResourcePool.release_resources`: release every listed resource with no
owner argument (`pool_res.release()`). -/
def release_resources : Pool → List ResourceMsg → Pool
  | pool, [] => pool
  | pool, res :: rest =>
    release_resources (poolModify pool res.platform_info (fun r => r.releaseBy none)) rest

/-- Modelled from the spec: the public `ResourcePool.match_list` variant taking
a status criteria set, called by `reschedule` with {AVAILABLE, ALLOCATED}; only
the AVAILABLE-only `_match_list` is present under `src/`.  Same shape as
`_match_list` with the status test widened to the criteria. -/
def match_subset_crit (pool : Pool) (criteria : List ResStatus) (msg : ResourceMsg) :
    List String :=
  (pool.filter (fun r => criteria.contains r.status && r.matchMsg msg)).map
    (fun r => r.platform_info)

/-- Modelled from the spec: `ResourcePool.match_list` with criteria, failure
sentinel included. -/
def match_list_crit (pool : Pool) (resources : List ResourceMsg)
    (criteria : List ResStatus) : List (List String) :=
  let matchSets := resources.map (match_subset_crit pool criteria)
  if matchSets.any List.isEmpty then [] else matchSets

end ResourcePool

/-! Embedding of the scheduler loops of `scheduler_node.py`.  The transport,
logging and publication side effects are outside the core; the request handle
is the external `rocon_scheduler_requests` interface, whose state operations
may raise `InvalidTransition` (`TransitionError`) when the requester has
concurrently advanced the request — modelled by per-operation oracle bits. -/

/-- The `TransitionError` (`InvalidTransition`) exception raised by
request-handle state operations. -/
structure TransitionError where
deriving DecidableEq

/-- Reasons passed to `wait` (`Request.BUSY` and `Request.UNAVAILABLE`). -/
inductive WaitReason where
  | busy
  | unavailable
deriving DecidableEq

/-- The slice of the request handle the scheduler consumes: identity, the
pattern list, recorded allocations, priority, and two oracle bits saying
whether `wait` / `grant` would currently raise `TransitionError`. -/
structure ReqHandle where
  uuid : Nat
  priority : Int
  resources : List ResourceMsg
  allocations : List ResourceMsg
  wait_ok : Bool
  grant_ok : Bool
deriving DecidableEq

/-- The request object as `resource_pool.py` sees it. -/
def ReqHandle.toSched (rq : ReqHandle) : SchedRequest :=
  ⟨rq.uuid, rq.resources, rq.allocations⟩

/-- Modelled from the spec: `request.wait(reason)` — raises `TransitionError`
when the requester has concurrently advanced the request. -/
def ReqHandle.waitE (rq : ReqHandle) (_reason : WaitReason) :
    Except TransitionError Unit :=
  if rq.wait_ok then .ok () else .error ⟨⟩

/-- Modelled from the spec: `request.grant(resources)` — raises
`TransitionError` when the request is no longer active. -/
def ReqHandle.grantE (rq : ReqHandle) (_resources : List ResourceMsg) :
    Except TransitionError Unit :=
  if rq.grant_ok then .ok () else .error ⟨⟩

namespace SchedulerNode

open ResourcePool

/-- Modelled from the spec (`priority_queue.py` is absent from `src/`): a
queue element carries the negated request priority and a construction-time
sequence number; equality is by request uuid, ordering is lexicographic on
(priority, sequence). -/
structure QueueElement where
  priority : Int
  sequence : Nat
  request : ReqHandle
  requester_id : Nat
deriving DecidableEq

/-- The (priority, sequence) ordering of queue elements. -/
def QueueElement.keyLeB (e1 e2 : QueueElement) : Bool :=
  decide (e1.priority < e2.priority ∨
    (e1.priority = e2.priority ∧ e1.sequence ≤ e2.sequence))

/-- Insert an element in front of the first element with a larger key. -/
def insertSorted (e : QueueElement) : List QueueElement → List QueueElement
  | [] => [e]
  | x :: xs => if e.keyLeB x then e :: x :: xs else x :: insertSorted e xs

/-- Modelled from the spec: `PriorityQueue.add` with no priority argument —
insert the element unless one with the same uuid is already queued.  The
priority queue is embedded as a list sorted by (priority, sequence); `pop`
takes the head. -/
def pqAdd (q : List QueueElement) (e : QueueElement) : List QueueElement :=
  if q.any (fun x => x.request.uuid == e.request.uuid) then q else insertSorted e q

/-- Embeds `self.notification_set.add(x)` on the set of requester ids. -/
def notifAdd (s : List Nat) (x : Nat) : List Nat :=
  if x ∈ s then s else s ++ [x]

/-- The scheduler state touched by the embedded loops. -/
structure SchedState where
  pool : Pool
  ready_queue : List QueueElement
  blocked_queue : List QueueElement
  notification_set : List Nat
deriving DecidableEq

/-- Result of one dispatch pass: the new ready queue, pool and notification
set, plus the uuids of the elements on which allocation was attempted, in
order. -/
structure DispatchResult where
  ready_queue : List QueueElement
  pool : Pool
  notification_set : List Nat
  attempted : List Nat
deriving DecidableEq

/-- The loop of `SimpleSchedulerNode.dispatch`: pop the ready head, try to
allocate; on an empty allocation push the element back and stop; on a grant
failure (`TransitionError`) release the just-allocated resources and continue;
otherwise commit and continue.  (In the modelled pattern dialect every pattern
compiles, so the `InvalidRequestError` / `reject_request` branch is
unreachable and not represented.) -/
def dispatchLoop : List QueueElement → Pool → List Nat → List Nat → DispatchResult
  | [], pool, notifs, trace => ⟨[], pool, notifs, trace⟩
  | elem :: rest, pool, notifs, trace =>
    let res := allocate pool elem.request.toSched
    if res.1.isEmpty then
      ⟨pqAdd rest elem, res.2, notifs, trace ++ [elem.request.uuid]⟩
    else
      match elem.request.grantE res.1 with
      | .error _ =>
        dispatchLoop rest (release_resources res.2 res.1)
          (notifAdd notifs elem.requester_id) (trace ++ [elem.request.uuid])
      | .ok _ =>
        dispatchLoop rest res.2 (notifAdd notifs elem.requester_id)
          (trace ++ [elem.request.uuid])

/-- One dispatch pass over the scheduler state (requester notification and
pool publication are transport effects outside the embedded core). -/
def dispatch (s : SchedState) : DispatchResult :=
  dispatchLoop s.ready_queue s.pool s.notification_set []

/-- The demotion loop of `SimpleSchedulerNode.reschedule`: pop the ready head;
if it could be satisfied were every AVAILABLE or ALLOCATED resource free, push
it back and stop; otherwise call `wait(UNAVAILABLE)` — a call the source does
not guard, so a `TransitionError` raised there propagates — and move the
element to the blocked queue. -/
def rescheduleLoop : List QueueElement → Pool → List QueueElement → List Nat →
    Except TransitionError (List QueueElement × List QueueElement × List Nat)
  | [], _, blocked, notifs => .ok ([], blocked, notifs)
  | elem :: rest, pool, blocked, notifs =>
    if (match_list_crit pool elem.request.resources
        [ResStatus.available, ResStatus.allocated]).isEmpty then
      match elem.request.waitE .unavailable with
      | .error e => .error e
      | .ok _ =>
        rescheduleLoop rest pool (pqAdd blocked elem)
          (notifAdd notifs elem.requester_id)
    else
      .ok (pqAdd rest elem, blocked, notifs)

/-- Embeds `SimpleSchedulerNode.reschedule`: demote unsatisfiable ready heads, then
dispatch the remaining ready queue.  An unabsorbed `TransitionError` from the
demotion loop's `wait` escapes the whole periodic callback. -/
def reschedule (s : SchedState) : Except TransitionError (SchedState × List Nat) :=
  match rescheduleLoop s.ready_queue s.pool s.blocked_queue s.notification_set with
  | .error e => .error e
  | .ok (ready2, blocked2, notifs2) =>
    let d := dispatchLoop ready2 s.pool notifs2 []
    .ok (⟨d.pool, d.ready_queue, blocked2, d.notification_set⟩, d.attempted)

/-- A ready-queue element whose requester has concurrently cancelled the
request (`wait` raises) and whose single pattern no resource matches. -/
def exBlockedElem : QueueElement :=
  ⟨0, 0, ⟨21, 0, [⟨"rocon:/turtlebot/marvin", "rapp"⟩], [], false, true⟩, 4⟩

/-- Scheduler state whose reschedule tick hits the unguarded `wait`. -/
def exWaitErrState : SchedState :=
  ⟨[], [exBlockedElem], [], []⟩

/-- Roberto, owner-free and AVAILABLE. -/
def exRoberto : PoolResource :=
  ⟨"rocon:/turtlebot/roberto", "rapp", .available, none⟩

/-- Head element wanting the absent marvin. -/
def exElemMarvin : QueueElement :=
  ⟨0, 0, ⟨31, 0, [⟨"rocon:/turtlebot/marvin", "rapp"⟩], [], true, true⟩, 5⟩

/-- Second element wanting the present roberto. -/
def exElemRoberto : QueueElement :=
  ⟨0, 1, ⟨32, 0, [⟨"rocon:/turtlebot/roberto", "rapp"⟩], [], true, true⟩, 6⟩

/-- Head-of-line blocking state: the head is unsatisfiable while the element
behind it could be granted. -/
def exHeadBlockState : SchedState :=
  ⟨[exRoberto], [exElemMarvin, exElemRoberto], [], []⟩

/-- An element whose grant will raise (requester concurrently cancelled). -/
def exElemGrantFail : QueueElement :=
  ⟨0, 0, ⟨41, 0, [⟨"rocon:/turtlebot/roberto", "rapp"⟩], [], true, false⟩, 7⟩

/-- State whose head allocation succeeds but whose grant raises. -/
def exGrantFailState : SchedState :=
  ⟨[exRoberto], [exElemGrantFail, exElemRoberto], [], []⟩

end SchedulerNode

namespace ResourcePool

/-! Concrete inputs used by the witnesses below. -/

/-- Two AVAILABLE turtlebots offering rapp X. -/
def exPoolAB : Pool :=
  [⟨"rocon:/a", "X", .available, none⟩, ⟨"rocon:/b", "X", .available, none⟩]

/-- A two-item request that greedy satisfies only under the non-identity
permutation: item 0 is a wildcard, item 1 names resource a. -/
def exReqPermute : SchedRequest :=
  ⟨9, [⟨"rocon:/.*", "X"⟩, ⟨"rocon:/a", "X"⟩], []⟩

/-- A system of distinct representatives across the per-item match sets: one
URI per pattern item, drawn from that item's set, all pairwise distinct. -/
def HasSDR (sets : List (List String)) : Prop :=
  ∃ ch : Nat → String,
    (∀ i, i < sets.length → ch i ∈ sets.getD i []) ∧
    ∀ i j, i < sets.length → j < sets.length → ch i = ch j → i = j

/-! Basic lemmas about the allocation loops. -/

theorem applyAssign_length (ps : List (Nat × String)) :
    ∀ l : List ResourceMsg, (applyAssign l ps).length = l.length := by
  induction ps with
  | nil => intro l; rfl
  | cons p rest ih =>
    intro l
    simp only [applyAssign, ih, List.length_set]

theorem allocate_permutation_fst_empty {pool : Pool} {perm : List Nat}
    {request : SchedRequest} {ms : List (List String)}
    (h : (allocate_permutation pool perm request ms).1 = []) :
    (allocate_permutation pool perm request ms).2 = pool := by
  unfold allocate_permutation at h ⊢
  cases hg : greedyAssign perm ms [] with
  | none => rfl
  | some pairs =>
    rw [hg] at h
    simp only at h ⊢
    rw [h]
    rfl

theorem tryPerms_fst_empty {pool : Pool} {perms : List (List Nat)}
    {request : SchedRequest} {ms : List (List String)}
    (h : (tryPerms pool perms request ms).1 = []) :
    (tryPerms pool perms request ms).2 = pool := by
  induction perms with
  | nil => rfl
  | cons p rest ih =>
    unfold tryPerms at h ⊢
    by_cases he : (allocate_permutation pool p request ms).1.isEmpty
    · rw [if_pos he] at h ⊢
      exact ih h
    · rw [if_neg he] at h ⊢
      exact absurd (by rw [h]; rfl) he

/-- C1 — on every failure path `ResourcePool.allocate` returns the pool
exactly unchanged: no resource's status or owner is modified, including by
failures inside the permutation search. -/
theorem allocate_fail_pool_unchanged (pool : Pool) (request : SchedRequest)
    (h : (allocate pool request).1 = []) :
    (allocate pool request).2 = pool := by
  unfold allocate at h ⊢
  by_cases h1 : (match_list pool request.resources).isEmpty
  · rw [if_pos h1]
  · rw [if_neg h1] at h ⊢
    simp only at h ⊢
    by_cases h2 : (match_list pool request.resources).flatten.dedup.length <
        request.resources.length
    · rw [if_pos h2]
    · rw [if_neg h2] at h ⊢
      by_cases h3 : (allocate_permutation pool (List.range request.resources.length)
          request (match_list pool request.resources)).1.isEmpty
      · rw [if_neg (by simp [h3])] at h ⊢
        by_cases h4 : request.resources.length > 3
        · rw [if_pos h4]
        · rw [if_neg h4] at h ⊢
          exact tryPerms_fst_empty h
      · rw [if_pos (by simp [h3])] at h ⊢
        exact allocate_permutation_fst_empty h

/-- Witness for C1 at a concrete failing input. -/
theorem allocate_fail_pool_unchanged_witness :
    (allocate [] ⟨1, [⟨"rocon:/turtlebot/marvin", "rapp"⟩], []⟩).1 = [] ∧
      (allocate [] ⟨1, [⟨"rocon:/turtlebot/marvin", "rapp"⟩], []⟩).2 = [] :=
  ⟨rfl, allocate_fail_pool_unchanged [] ⟨1, [⟨"rocon:/turtlebot/marvin", "rapp"⟩], []⟩ rfl⟩

/-- C9 — a request with zero pattern items is never granted: `_match_list` of
the empty list is the empty list, which `allocate` treats as the failure
sentinel, so it returns the empty allocation with the pool unchanged. -/
theorem allocate_zero_items (pool : Pool) (request : SchedRequest)
    (h : request.resources = []) :
    allocate pool request = ([], pool) ∧ match_list pool request.resources = [] := by
  obtain ⟨u, res, al⟩ := request
  simp only at h
  subst h
  exact ⟨rfl, rfl⟩

/-- Witness for C9 at a concrete input. -/
theorem allocate_zero_items_witness :
    allocate [⟨"rocon:/a", "x", ResStatus.available, none⟩] ⟨5, [], []⟩ =
        ([], [⟨"rocon:/a", "x", ResStatus.available, none⟩]) ∧
      match_list [⟨"rocon:/a", "x", ResStatus.available, none⟩] [] = [] :=
  allocate_zero_items _ ⟨5, [], []⟩ rfl

/-! Bookkeeping lemmas about the greedy search. -/

theorem pickName_some {names used : List String} {nm : String}
    (h : pickName names used = some nm) : nm ∈ names ∧ nm ∉ used := by
  refine ⟨List.mem_of_find?_eq_some h, fun hmem => ?_⟩
  have h2 := List.find?_some h
  simp only [List.contains, Bool.not_eq_true', ← Bool.not_eq_true, List.elem_iff] at h2
  exact h2 hmem

theorem pickName_none {names used : List String}
    (h : pickName names used = none) : ∀ x ∈ names, x ∈ used := by
  intro x hx
  have := List.find?_eq_none.mp h x hx
  simpa [List.contains, List.elem_iff] using this

theorem pickName_isSome {names used : List String} {x : String}
    (hx : x ∈ names) (hu : x ∉ used) : ∃ nm, pickName names used = some nm := by
  cases hp : pickName names used with
  | none => exact absurd (pickName_none hp x hx) hu
  | some nm => exact ⟨nm, rfl⟩

theorem greedyAssign_keys :
    ∀ {p : List Nat} {ms : List (List String)} {used : List String}
      {pairs : List (Nat × String)},
      greedyAssign p ms used = some pairs → pairs.map Prod.fst = p := by
  intro p
  induction p with
  | nil =>
    intro ms used pairs h
    simp only [greedyAssign, Option.some.injEq] at h
    subst h
    rfl
  | cons i rest ih =>
    intro ms used pairs h
    unfold greedyAssign at h
    cases hp : pickName (ms.getD i []) used with
    | none => rw [hp] at h; exact absurd h (by simp)
    | some nm =>
      rw [hp] at h
      rw [Option.map_eq_some'] at h
      obtain ⟨tail, htail, hpairs⟩ := h
      subst hpairs
      simp [ih htail]

theorem greedyAssign_mem :
    ∀ {p : List Nat} {ms : List (List String)} {used : List String}
      {pairs : List (Nat × String)},
      greedyAssign p ms used = some pairs →
      ∀ q ∈ pairs, q.2 ∈ ms.getD q.1 [] ∧ q.2 ∉ used := by
  intro p
  induction p with
  | nil =>
    intro ms used pairs h
    simp only [greedyAssign, Option.some.injEq] at h
    subst h
    intro q hq
    cases hq
  | cons i rest ih =>
    intro ms used pairs h
    unfold greedyAssign at h
    cases hp : pickName (ms.getD i []) used with
    | none => rw [hp] at h; exact absurd h (by simp)
    | some nm =>
      rw [hp] at h
      rw [Option.map_eq_some'] at h
      obtain ⟨tail, htail, hpairs⟩ := h
      subst hpairs
      intro q hq
      rcases List.mem_cons.mp hq with hq | hq
      · subst hq
        exact pickName_some hp
      · obtain ⟨h1, h2⟩ := ih htail q hq
        exact ⟨h1, fun hu => h2 (List.mem_append_left _ hu)⟩

theorem greedyAssign_nodup :
    ∀ {p : List Nat} {ms : List (List String)} {used : List String}
      {pairs : List (Nat × String)},
      greedyAssign p ms used = some pairs → (pairs.map Prod.snd).Nodup := by
  intro p
  induction p with
  | nil =>
    intro ms used pairs h
    simp only [greedyAssign, Option.some.injEq] at h
    subst h
    exact List.nodup_nil
  | cons i rest ih =>
    intro ms used pairs h
    unfold greedyAssign at h
    cases hp : pickName (ms.getD i []) used with
    | none => rw [hp] at h; exact absurd h (by simp)
    | some nm =>
      rw [hp] at h
      rw [Option.map_eq_some'] at h
      obtain ⟨tail, htail, hpairs⟩ := h
      subst hpairs
      rw [List.map_cons, List.nodup_cons]
      refine ⟨fun hmem => ?_, ih htail⟩
      obtain ⟨q, hq, hq2⟩ := List.mem_map.mp hmem
      have := (greedyAssign_mem htail q hq).2
      exact this (by rw [hq2]; exact List.mem_append_right _ (List.mem_singleton.mpr rfl))

theorem mem_getD_flatten {ms : List (List String)} {i : Nat} {x : String}
    (h : x ∈ ms.getD i []) : x ∈ ms.flatten := by
  rcases lt_or_ge i ms.length with hi | hi
  · rw [List.getD_eq_getElem?_getD, List.getElem?_eq_getElem hi] at h
    exact List.mem_flatten.mpr ⟨ms[i], List.getElem_mem hi, h⟩
  · rw [List.getD_eq_getElem?_getD, List.getElem?_eq_none hi] at h
    cases h

theorem nodup_sub_length {l₁ l₂ : List String} (hn : l₁.Nodup)
    (hs : ∀ x ∈ l₁, x ∈ l₂) : l₁.length ≤ l₂.length := by
  calc l₁.length = l₁.toFinset.card := (List.toFinset_card_of_nodup hn).symm
    _ ≤ l₂.toFinset.card :=
        Finset.card_le_card
          (fun x hx => List.mem_toFinset.mpr (hs x (List.mem_toFinset.mp hx)))
    _ ≤ l₂.length := List.toFinset_card_le l₂

/-- A successful greedy pass yields as many pairwise-distinct names as indices,
so the match union is at least that large (the step-2 union test is implied by
greedy success). -/
theorem greedyAssign_union_ge {p : List Nat} {ms : List (List String)}
    {pairs : List (Nat × String)} (h : greedyAssign p ms [] = some pairs) :
    p.length ≤ ms.flatten.dedup.length := by
  have hlen : (pairs.map Prod.snd).length = p.length := by
    rw [List.length_map, ← greedyAssign_keys h, List.length_map]
  rw [← hlen]
  refine nodup_sub_length (greedyAssign_nodup h) ?_
  intro x hx
  obtain ⟨q, hq, hq2⟩ := List.mem_map.mp hx
  subst hq2
  exact List.mem_dedup.mpr (mem_getD_flatten (greedyAssign_mem h q hq).1)

/-! Characterizing when `allocate` succeeds. -/

theorem match_list_ne_sentinel {pool : Pool} {rs : List ResourceMsg}
    (h : match_list pool rs ≠ []) :
    match_list pool rs = rs.map (match_subset pool) := by
  simp only [match_list] at h ⊢
  by_cases ha : (rs.map (match_subset pool)).any List.isEmpty
  · rw [if_pos ha] at h; exact absurd rfl h
  · rw [if_neg ha]

theorem applyAssign_ne_nil {rs : List ResourceMsg} {pairs : List (Nat × String)}
    (h : rs ≠ []) : applyAssign rs pairs ≠ [] := by
  intro hc
  have := applyAssign_length pairs rs
  rw [hc] at this
  exact h (List.length_eq_zero.mp this.symm)

theorem lexPermsAux_head :
    ∀ (fuel : Nat) (l : List Nat), l.length = fuel →
      ∃ rest, lexPermsAux fuel l = l :: rest := by
  intro fuel
  induction fuel with
  | zero =>
    intro l hl
    rw [List.length_eq_zero.mp hl]
    exact ⟨[], rfl⟩
  | succ fuel ih =>
    intro l hl
    cases l with
    | nil => simp at hl
    | cons x xs =>
      obtain ⟨rest, hrest⟩ := ih xs (by simpa using hl)
      refine ⟨(rest.map (fun p => x :: p)) ++
        xs.flatMap (fun y => (lexPermsAux fuel ((x :: xs).erase y)).map (fun p => y :: p)), ?_⟩
      simp only [lexPermsAux, List.flatMap_cons, List.erase_cons_head, hrest, List.map_cons]
      rfl

theorem lexPerms_cons (l : List Nat) : ∃ rest, lexPerms l = l :: rest :=
  lexPermsAux_head l.length l rfl

/-- Every emitted permutation is a permutation of the input list. -/
theorem lexPermsAux_perm :
    ∀ (fuel : Nat) (l p : List Nat), l.length = fuel →
      p ∈ lexPermsAux fuel l → p.Perm l := by
  intro fuel
  induction fuel with
  | zero =>
    intro l p hl hp
    rw [List.length_eq_zero.mp hl]
    rcases List.mem_singleton.mp hp with rfl
    exact List.Perm.refl _
  | succ fuel ih =>
    intro l p hl hp
    simp only [lexPermsAux, List.mem_flatMap, List.mem_map] at hp
    obtain ⟨x, hx, q, hq, rfl⟩ := hp
    have hlen : (l.erase x).length = fuel := by
      rw [List.length_erase_of_mem hx, hl]
      rfl
    have hqp := ih (l.erase x) q hlen hq
    exact (hqp.cons x).trans (List.perm_cons_erase hx).symm

theorem lexPerms_perm {l p : List Nat} (hp : p ∈ lexPerms l) : p.Perm l :=
  lexPermsAux_perm l.length l p rfl hp

theorem allocate_permutation_success_elim {pool : Pool} {perm : List Nat}
    {request : SchedRequest} {ms : List (List String)}
    (h : (allocate_permutation pool perm request ms).1 ≠ []) :
    ∃ pairs, greedyAssign perm ms [] = some pairs ∧
      (allocate_permutation pool perm request ms).1 = applyAssign request.resources pairs := by
  unfold allocate_permutation at h ⊢
  cases hg : greedyAssign perm ms [] with
  | none => rw [hg] at h; exact absurd rfl h
  | some pairs => exact ⟨pairs, rfl, rfl⟩

theorem tryPerms_success_elim {pool : Pool} {perms : List (List Nat)}
    {request : SchedRequest} {ms : List (List String)}
    (h : (tryPerms pool perms request ms).1 ≠ []) :
    ∃ p ∈ perms, allocate_permutation pool p request ms = tryPerms pool perms request ms ∧
      (allocate_permutation pool p request ms).1 ≠ [] := by
  induction perms with
  | nil => exact absurd rfl h
  | cons p rest ih =>
    unfold tryPerms at h ⊢
    by_cases he : (allocate_permutation pool p request ms).1.isEmpty
    · rw [if_pos he] at h ⊢
      obtain ⟨q, hq, heq, hne⟩ := ih h
      exact ⟨q, List.mem_cons_of_mem _ hq, heq, hne⟩
    · rw [if_neg he] at h ⊢
      exact ⟨p, List.mem_cons_self _ _, rfl, by simpa [List.isEmpty_iff] using he⟩

theorem tryPerms_success_intro {pool : Pool} {perms : List (List Nat)}
    {request : SchedRequest} {ms : List (List String)} {p : List Nat}
    (hp : p ∈ perms) (hne : (allocate_permutation pool p request ms).1 ≠ []) :
    (tryPerms pool perms request ms).1 ≠ [] := by
  induction perms with
  | nil => cases hp
  | cons q rest ih =>
    unfold tryPerms
    by_cases he : (allocate_permutation pool q request ms).1.isEmpty
    · rw [if_pos he]
      rcases List.mem_cons.mp hp with rfl | hp2
      · exact absurd (List.isEmpty_iff.mp he) hne
      · exact ih hp2
    · rw [if_neg he]
      simpa [List.isEmpty_iff] using he

/-- A non-empty result of `allocate` comes from a successful greedy pass over
some permutation (identity included) of the request indices. -/
theorem allocate_success_elim {pool : Pool} {request : SchedRequest}
    (h : (allocate pool request).1 ≠ []) :
    match_list pool request.resources ≠ [] ∧
      ∃ p pairs, p ∈ lexPerms (List.range request.resources.length) ∧
        greedyAssign p (match_list pool request.resources) [] = some pairs ∧
        (allocate pool request).1 = applyAssign request.resources pairs := by
  unfold allocate at h ⊢
  by_cases h1 : (match_list pool request.resources).isEmpty
  · rw [if_pos h1] at h; exact absurd rfl h
  · rw [if_neg h1] at h ⊢
    simp only at h ⊢
    refine ⟨by simpa [List.isEmpty_iff] using h1, ?_⟩
    by_cases h2 : (match_list pool request.resources).flatten.dedup.length <
        request.resources.length
    · rw [if_pos h2] at h; exact absurd rfl h
    · rw [if_neg h2] at h ⊢
      by_cases h3 : (allocate_permutation pool (List.range request.resources.length)
          request (match_list pool request.resources)).1.isEmpty
      · rw [if_neg (by simp [h3])] at h ⊢
        by_cases h4 : request.resources.length > 3
        · rw [if_pos h4] at h; exact absurd rfl h
        · rw [if_neg h4] at h ⊢
          obtain ⟨p, hp, heq, hne⟩ := tryPerms_success_elim h
          obtain ⟨pairs, hg, hfst⟩ := allocate_permutation_success_elim hne
          refine ⟨p, pairs, ?_, hg, by rw [← heq]; exact hfst⟩
          exact List.mem_of_mem_drop hp
      · rw [if_pos (by simp [h3])] at h ⊢
        have hne : (allocate_permutation pool (List.range request.resources.length)
            request (match_list pool request.resources)).1 ≠ [] := by
          simpa [List.isEmpty_iff] using h3
        obtain ⟨pairs, hg, hfst⟩ := allocate_permutation_success_elim hne
        obtain ⟨rest, hrest⟩ := lexPerms_cons (List.range request.resources.length)
        exact ⟨List.range request.resources.length, pairs,
          by rw [hrest]; exact List.mem_cons_self _ _, hg, hfst⟩

theorem allocate_permutation_fst_ne {pool : Pool} {perm : List Nat}
    {request : SchedRequest} {ms : List (List String)} {pairs : List (Nat × String)}
    (hg : greedyAssign perm ms [] = some pairs) (hres : request.resources ≠ []) :
    (allocate_permutation pool perm request ms).1 ≠ [] := by
  unfold allocate_permutation
  rw [hg]
  exact applyAssign_ne_nil hres

/-- When the pre-tests pass and some considered permutation admits a greedy
assignment, `allocate` returns a non-empty allocation. -/
theorem allocate_success_intro {pool : Pool} {request : SchedRequest}
    (hn : 1 ≤ request.resources.length)
    (hn3 : request.resources.length ≤ 3)
    (hml : match_list pool request.resources ≠ [])
    (hunion : request.resources.length ≤
      (match_list pool request.resources).flatten.dedup.length)
    (hp : ∃ p ∈ lexPerms (List.range request.resources.length),
        greedyAssign p (match_list pool request.resources) [] ≠ none) :
    (allocate pool request).1 ≠ [] := by
  have hres : request.resources ≠ [] := by
    intro hc
    rw [hc] at hn
    exact absurd hn (by simp)
  unfold allocate
  rw [if_neg (by simpa [List.isEmpty_iff] using hml)]
  simp only
  rw [if_neg (not_lt.mpr hunion)]
  by_cases h3 : (allocate_permutation pool (List.range request.resources.length)
      request (match_list pool request.resources)).1.isEmpty
  · rw [if_neg (by simp [h3])]
    rw [if_neg (not_lt.mpr hn3)]
    obtain ⟨p, hpmem, hg⟩ := hp
    have hid : greedyAssign (List.range request.resources.length)
        (match_list pool request.resources) [] = none := by
      cases hgid : greedyAssign (List.range request.resources.length)
          (match_list pool request.resources) [] with
      | none => rfl
      | some pairs =>
        exact absurd (List.isEmpty_iff.mp h3) (allocate_permutation_fst_ne hgid hres)
    obtain ⟨rest, hrest⟩ := lexPerms_cons (List.range request.resources.length)
    have hpdrop : p ∈ (lexPerms (List.range request.resources.length)).drop 1 := by
      rw [hrest] at hpmem ⊢
      rcases List.mem_cons.mp hpmem with rfl | hmem
      · exact absurd hid hg
      · simpa using hmem
    cases hgp : greedyAssign p (match_list pool request.resources) [] with
    | none => exact absurd hgp hg
    | some pairs => exact tryPerms_success_intro hpdrop (allocate_permutation_fst_ne hgp hres)
  · rw [if_pos (by simp [h3])]
    simpa [List.isEmpty_iff] using h3

/-- C5 — for more than three pattern items `allocate` never enumerates
permutations: it returns a non-empty allocation exactly when the match sets
are non-sentinel and the greedy pass in the requested (identity) order assigns
every item, even though a system of distinct representatives might exist under
another permutation. -/
theorem allocate_gt3_identity_only (pool : Pool) (request : SchedRequest)
    (h : 3 < request.resources.length) :
    (allocate pool request).1 ≠ [] ↔
      match_list pool request.resources ≠ [] ∧
        greedyAssign (List.range request.resources.length)
          (match_list pool request.resources) [] ≠ none := by
  have hres : request.resources ≠ [] := by
    intro hc
    rw [hc] at h
    exact absurd h (by simp)
  constructor
  · intro hne
    have hidne : (allocate_permutation pool (List.range request.resources.length)
        request (match_list pool request.resources)).1 ≠ [] := by
      unfold allocate at hne
      by_cases h1 : (match_list pool request.resources).isEmpty
      · rw [if_pos h1] at hne; exact absurd rfl hne
      · rw [if_neg h1] at hne
        simp only at hne
        by_cases h2 : (match_list pool request.resources).flatten.dedup.length <
            request.resources.length
        · rw [if_pos h2] at hne; exact absurd rfl hne
        · rw [if_neg h2] at hne
          by_cases h3 : (allocate_permutation pool (List.range request.resources.length)
              request (match_list pool request.resources)).1.isEmpty
          · rw [if_neg (by simp [h3]), if_pos h] at hne
            exact absurd rfl hne
          · simpa [List.isEmpty_iff] using h3
    obtain ⟨pairs, hg, _⟩ := allocate_permutation_success_elim hidne
    exact ⟨(allocate_success_elim hne).1, by rw [hg]; simp⟩
  · rintro ⟨hml, hg⟩
    cases hgid : greedyAssign (List.range request.resources.length)
        (match_list pool request.resources) [] with
    | none => exact absurd hgid hg
    | some pairs =>
      have hunion : request.resources.length ≤
          (match_list pool request.resources).flatten.dedup.length := by
        have := greedyAssign_union_ge hgid
        simpa using this
      unfold allocate
      rw [if_neg (by simpa [List.isEmpty_iff] using hml)]
      simp only
      rw [if_neg (not_lt.mpr hunion)]
      rw [if_pos (by simp [List.isEmpty_iff.not.mpr
        (@allocate_permutation_fst_ne pool _ _ _ _ hgid hres)] )]
      exact allocate_permutation_fst_ne hgid hres

/-- Witness for C5 at a four-item request: identity greedy succeeds, so both
sides of the equivalence hold. -/
theorem allocate_gt3_identity_only_witness :
    (3 < 4 ∧
      ((allocate
          [⟨"rocon:/a", "x", ResStatus.available, none⟩,
           ⟨"rocon:/b", "x", ResStatus.available, none⟩,
           ⟨"rocon:/c", "x", ResStatus.available, none⟩,
           ⟨"rocon:/d", "x", ResStatus.available, none⟩]
          ⟨2, [⟨"rocon:/.*", "x"⟩, ⟨"rocon:/.*", "x"⟩, ⟨"rocon:/.*", "x"⟩,
               ⟨"rocon:/.*", "x"⟩], []⟩).1 ≠ [] ↔
        match_list
            [⟨"rocon:/a", "x", ResStatus.available, none⟩,
             ⟨"rocon:/b", "x", ResStatus.available, none⟩,
             ⟨"rocon:/c", "x", ResStatus.available, none⟩,
             ⟨"rocon:/d", "x", ResStatus.available, none⟩]
            [⟨"rocon:/.*", "x"⟩, ⟨"rocon:/.*", "x"⟩, ⟨"rocon:/.*", "x"⟩,
             ⟨"rocon:/.*", "x"⟩] ≠ [] ∧
          greedyAssign (List.range 4)
            (match_list
              [⟨"rocon:/a", "x", ResStatus.available, none⟩,
               ⟨"rocon:/b", "x", ResStatus.available, none⟩,
               ⟨"rocon:/c", "x", ResStatus.available, none⟩,
               ⟨"rocon:/d", "x", ResStatus.available, none⟩]
              [⟨"rocon:/.*", "x"⟩, ⟨"rocon:/.*", "x"⟩, ⟨"rocon:/.*", "x"⟩,
               ⟨"rocon:/.*", "x"⟩]) [] ≠ none)) :=
  ⟨by decide, allocate_gt3_identity_only _ _ (by decide)⟩

/-! Index alignment of the returned allocation (C7). -/

theorem getD_set_ne {l : List ResourceMsg} {j i : Nat} (h : j ≠ i) (a d : ResourceMsg) :
    (l.set j a).getD i d = l.getD i d := by
  simp [List.getD_eq_getElem?_getD, List.getElem?_set, h]

theorem getD_set_eq {l : List ResourceMsg} {j : Nat} (h : j < l.length) (a d : ResourceMsg) :
    (l.set j a).getD j d = a := by
  simp [List.getD_eq_getElem?_getD, List.getElem?_set, h]

theorem getD_lt {α : Type} {l : List α} {i : Nat} (h : i < l.length) (d : α) :
    l.getD i d = l[i] := by
  simp [List.getD_eq_getElem?_getD, List.getElem?_eq_getElem h]

theorem map_getD_lt {rs : List ResourceMsg} {i : Nat} (h : i < rs.length)
    (f : ResourceMsg → List String) (d : ResourceMsg) :
    (rs.map f).getD i [] = f (rs.getD i d) := by
  rw [getD_lt (show i < (rs.map f).length by simpa using h) ([] : List String)]
  rw [List.getElem_map, getD_lt h d]

theorem applyAssign_getD_not_mem :
    ∀ {ps : List (Nat × String)} {l : List ResourceMsg} {i : Nat} {d : ResourceMsg},
      i ∉ ps.map Prod.fst → (applyAssign l ps).getD i d = l.getD i d := by
  intro ps
  induction ps with
  | nil => intro l i d _; rfl
  | cons p rest ih =>
    intro l i d h
    rw [List.map_cons, List.mem_cons] at h
    push_neg at h
    unfold applyAssign
    rw [ih h.2]
    exact getD_set_ne (fun hc => h.1 hc.symm) _ _

theorem applyAssign_getD_mem :
    ∀ {ps : List (Nat × String)} {l : List ResourceMsg} {i : Nat} {nm : String}
      {d : ResourceMsg},
      (ps.map Prod.fst).Nodup → (i, nm) ∈ ps → i < l.length →
      (applyAssign l ps).getD i d = { l.getD i d with platform_info := nm } := by
  intro ps
  induction ps with
  | nil => intro l i nm d _ hmem _; cases hmem
  | cons p rest ih =>
    intro l i nm d hnd hmem hi
    rw [List.map_cons, List.nodup_cons] at hnd
    rcases List.mem_cons.mp hmem with heq | hmem2
    · have hp1 : p.1 = i := by rw [← heq]
      have hp2 : p.2 = nm := by rw [← heq]
      subst hp1
      subst hp2
      unfold applyAssign
      rw [applyAssign_getD_not_mem hnd.1, getD_set_eq hi]
      rw [getD_lt hi, getD_lt hi]
    · have hne : p.1 ≠ i := by
        intro hc
        exact hnd.1 (hc ▸ List.mem_map.mpr ⟨(i, nm), hmem2, rfl⟩)
      unfold applyAssign
      rw [ih hnd.2 hmem2 (by simpa using hi), getD_set_ne hne]

/-- The URIs written by `applyAssign` are pairwise distinct whenever the
assignment has distinct keys covering every index and distinct names. -/
theorem applyAssign_names_nodup {rs : List ResourceMsg} {pairs : List (Nat × String)}
    (hkeysnodup : (pairs.map Prod.fst).Nodup)
    (hsndnodup : (pairs.map Prod.snd).Nodup)
    (hcover : ∀ i, i < rs.length → ∃ nm, (i, nm) ∈ pairs) :
    ((applyAssign rs pairs).map (fun r => r.platform_info)).Nodup := by
  have hlen2 : (applyAssign rs pairs).length = rs.length := applyAssign_length _ _
  rw [List.nodup_iff_injective_get]
  intro k1 k2 hk
  have hk1 : (k1 : Nat) < rs.length := by
    have := k1.2
    simpa [hlen2] using this
  have hk2 : (k2 : Nat) < rs.length := by
    have := k2.2
    simpa [hlen2] using this
  obtain ⟨nm1, hm1⟩ := hcover _ hk1
  obtain ⟨nm2, hm2⟩ := hcover _ hk2
  have hv1 := applyAssign_getD_mem (l := rs) (d := default) hkeysnodup hm1 hk1
  have hv2 := applyAssign_getD_mem (l := rs) (d := default) hkeysnodup hm2 hk2
  have hget1 : ((applyAssign rs pairs).map (fun r => r.platform_info)).get k1 = nm1 := by
    rw [List.get_eq_getElem, List.getElem_map,
      ← getD_lt (show (k1 : Nat) < (applyAssign rs pairs).length by
        simpa [hlen2] using hk1) default, hv1]
  have hget2 : ((applyAssign rs pairs).map (fun r => r.platform_info)).get k2 = nm2 := by
    rw [List.get_eq_getElem, List.getElem_map,
      ← getD_lt (show (k2 : Nat) < (applyAssign rs pairs).length by
        simpa [hlen2] using hk2) default, hv2]
  have hnm : nm1 = nm2 := by rw [← hget1, ← hget2, hk]
  subst hnm
  have hqq := List.inj_on_of_nodup_map hsndnodup hm1 hm2 rfl
  exact Fin.ext (congrArg Prod.fst hqq)

/-- C7 — a successful allocation has exactly one entry per pattern item, each
entry sitting at the index of its pattern item (only `platform_info` is
resolved, to a URI actually matching that item), and the chosen URIs are
pairwise distinct; this holds for every successful permutation, identity or
not. -/
theorem allocate_success_shape (pool : Pool) (request : SchedRequest)
    (h : (allocate pool request).1 ≠ []) :
    (allocate pool request).1.length = request.resources.length ∧
      (∀ i, i < request.resources.length →
        ∃ nm, (allocate pool request).1.getD i default =
            { request.resources.getD i default with platform_info := nm } ∧
          nm ∈ match_subset pool (request.resources.getD i default)) ∧
      ((allocate pool request).1.map (fun r => r.platform_info)).Nodup := by
  obtain ⟨hml, p, pairs, hpmem, hg, hfst⟩ := allocate_success_elim h
  have hperm : p.Perm (List.range request.resources.length) := lexPerms_perm hpmem
  have hkeys : pairs.map Prod.fst = p := greedyAssign_keys hg
  have hkeysnodup : (pairs.map Prod.fst).Nodup := by
    rw [hkeys]
    exact hperm.nodup_iff.mpr (List.nodup_range _)
  have hlen : (allocate pool request).1.length = request.resources.length := by
    rw [hfst]; exact applyAssign_length _ _
  have hassign : ∀ i, i < request.resources.length → ∃ nm, (i, nm) ∈ pairs := by
    intro i hi
    have hmem : i ∈ pairs.map Prod.fst := by
      rw [hkeys]
      exact hperm.mem_iff.mpr (List.mem_range.mpr hi)
    obtain ⟨q, hq, hq1⟩ := List.mem_map.mp hmem
    refine ⟨q.2, ?_⟩
    rw [show (i, q.2) = q from by rw [← hq1]]
    exact hq
  refine ⟨hlen, fun i hi => ?_, ?_⟩
  · obtain ⟨nm, hmem⟩ := hassign i hi
    refine ⟨nm, ?_, ?_⟩
    · rw [hfst]
      exact applyAssign_getD_mem hkeysnodup hmem hi
    · have hms := (greedyAssign_mem hg (i, nm) hmem).1
      rw [match_list_ne_sentinel hml, map_getD_lt hi _ default] at hms
      exact hms
  · rw [hfst]
    refine applyAssign_names_nodup hkeysnodup (greedyAssign_nodup hg) ?_
    exact hassign

/-- Witness for C7: a two-item request satisfied under the non-identity
permutation still returns entries in request order with distinct URIs. -/
theorem allocate_success_shape_witness :
    ((allocate exPoolAB exReqPermute).1 ≠ [] ∧
      ((allocate exPoolAB exReqPermute).1.length = exReqPermute.resources.length ∧
        (∀ i, i < exReqPermute.resources.length →
          ∃ nm, (allocate exPoolAB exReqPermute).1.getD i default =
              { exReqPermute.resources.getD i default with platform_info := nm } ∧
            nm ∈ match_subset exPoolAB (exReqPermute.resources.getD i default)) ∧
        ((allocate exPoolAB exReqPermute).1.map (fun r => r.platform_info)).Nodup)) :=
  ⟨by decide, allocate_success_shape exPoolAB exReqPermute (by decide)⟩

/-! The permutation search is complete for at most three items: whenever a
system of distinct representatives exists, some tried order succeeds. -/

theorem greedyAssign_nil_ne {ms : List (List String)} {used : List String} :
    greedyAssign [] ms used ≠ none := by
  simp [greedyAssign]

theorem greedyAssign_cons_ne {i : Nat} {p : List Nat} {ms : List (List String)}
    {used : List String} {x : String}
    (hx : pickName (ms.getD i []) used = some x)
    (hrest : greedyAssign p ms (used ++ [x]) ≠ none) :
    greedyAssign (i :: p) ms used ≠ none := by
  unfold greedyAssign
  rw [hx]
  cases hg : greedyAssign p ms (used ++ [x]) with
  | none => exact absurd hg hrest
  | some tail => simp [hg]

theorem greedyAssign_cons_none {i : Nat} {p : List Nat} {ms : List (List String)}
    {used : List String} (h : greedyAssign (i :: p) ms used = none) :
    pickName (ms.getD i []) used = none ∨
      ∃ x, pickName (ms.getD i []) used = some x ∧
        greedyAssign p ms (used ++ [x]) = none := by
  unfold greedyAssign at h
  cases hp : pickName (ms.getD i []) used with
  | none => exact Or.inl rfl
  | some x =>
    rw [hp] at h
    simp only at h
    cases hg : greedyAssign p ms (used ++ [x]) with
    | none => exact Or.inr ⟨x, rfl, hg⟩
    | some tail => rw [hg] at h; exact absurd h (by simp)

/-- Two items with two distinct free representatives: one of the two
processing orders succeeds. -/
theorem greedy_pair {j k : Nat} {ms : List (List String)} {used : List String}
    {x y : String} (hx : x ∈ ms.getD j []) (hy : y ∈ ms.getD k [])
    (hxu : x ∉ used) (hyu : y ∉ used) (hxy : x ≠ y) :
    greedyAssign [j, k] ms used ≠ none ∨ greedyAssign [k, j] ms used ≠ none := by
  obtain ⟨u, hu⟩ := pickName_isSome hx hxu
  cases hv : pickName (ms.getD k []) (used ++ [u]) with
  | some v =>
    exact Or.inl (greedyAssign_cons_ne hu (greedyAssign_cons_ne hv greedyAssign_nil_ne))
  | none =>
    have hyu2 : y = u := by
      rcases List.mem_append.mp (pickName_none hv y hy) with h | h
      · exact absurd h hyu
      · exact List.mem_singleton.mp h
    obtain ⟨w, hw⟩ := pickName_isSome hy hyu
    have hw2 := pickName_some hw
    have hwu : w = u := by
      rcases List.mem_append.mp (pickName_none hv w hw2.1) with h | h
      · exact absurd h hw2.2
      · exact List.mem_singleton.mp h
    have hxw : x ∉ used ++ [w] := by
      intro hmem
      rcases List.mem_append.mp hmem with h | h
      · exact hxu h
      · exact hxy ((List.mem_singleton.mp h).trans (hwu.trans hyu2.symm))
    obtain ⟨z, hz⟩ := pickName_isSome hx hxw
    exact Or.inr (greedyAssign_cons_ne hw (greedyAssign_cons_ne hz greedyAssign_nil_ne))

theorem no_pair_of_both_none {j k : Nat} {ms : List (List String)} {used : List String}
    (h1 : greedyAssign [j, k] ms used = none) (h2 : greedyAssign [k, j] ms used = none) :
    ∀ x ∈ ms.getD j [], x ∉ used → ∀ y ∈ ms.getD k [], y ∉ used → x = y := by
  intro x hx hxu y hy hyu
  by_contra hxy
  rcases greedy_pair hx hy hxu hyu hxy with h | h
  exacts [h h1, h h2]

/-- One item: any representative makes greedy succeed. -/
theorem greedy1set {S0 : List String} {a : String} (ha : a ∈ S0) :
    ∃ p ∈ lexPerms (List.range 1), greedyAssign p [S0] [] ≠ none := by
  obtain ⟨x, hx⟩ := @pickName_isSome S0 [] a ha (by simp)
  refine ⟨[0], by decide, ?_⟩
  exact greedyAssign_cons_ne hx greedyAssign_nil_ne

/-- Two items with an SDR: one of the two orders succeeds. -/
theorem greedy2sets {S0 S1 : List String} {a b : String}
    (ha : a ∈ S0) (hb : b ∈ S1) (hab : a ≠ b) :
    ∃ p ∈ lexPerms (List.range 2), greedyAssign p [S0, S1] [] ≠ none := by
  rcases @greedy_pair 0 1 [S0, S1] [] a b ha hb (by simp) (by simp) hab with h | h
  · exact ⟨[0, 1], by decide, h⟩
  · exact ⟨[1, 0], by decide, h⟩

/-- Three items with an SDR: one of the six orders succeeds. -/
theorem greedy3sets {S0 S1 S2 : List String} {a b c : String}
    (ha : a ∈ S0) (hb : b ∈ S1) (hc : c ∈ S2)
    (hab : a ≠ b) (hac : a ≠ c) (hbc : b ≠ c) :
    ∃ p ∈ lexPerms (List.range 3), greedyAssign p [S0, S1, S2] [] ≠ none := by
  by_contra hcon
  push_neg at hcon
  have hperms : lexPerms (List.range 3) =
      [[0, 1, 2], [0, 2, 1], [1, 0, 2], [1, 2, 0], [2, 0, 1], [2, 1, 0]] := by decide
  rw [hperms] at hcon
  have h012 := hcon [0, 1, 2] (by simp)
  have h021 := hcon [0, 2, 1] (by simp)
  have h102 := hcon [1, 0, 2] (by simp)
  have h120 := hcon [1, 2, 0] (by simp)
  have h201 := hcon [2, 0, 1] (by simp)
  have h210 := hcon [2, 1, 0] (by simp)
  obtain ⟨f0, hf0⟩ := @pickName_isSome S0 [] a ha (by simp)
  obtain ⟨f1, hf1⟩ := @pickName_isSome S1 [] b hb (by simp)
  obtain ⟨f2, hf2⟩ := @pickName_isSome S2 [] c hc (by simp)
  have hf0m : f0 ∈ S0 := (pickName_some hf0).1
  have hf1m : f1 ∈ S1 := (pickName_some hf1).1
  have hf2m : f2 ∈ S2 := (pickName_some hf2).1
  have tail_none : ∀ {i : Nat} {p : List Nat} {f : String},
      greedyAssign (i :: p) [S0, S1, S2] [] = none →
      pickName (([S0, S1, S2] : List (List String)).getD i []) [] = some f →
      greedyAssign p [S0, S1, S2] [f] = none := by
    intro i p f h hf
    rcases greedyAssign_cons_none h with h1 | ⟨x, hx, hrest⟩
    · rw [hf] at h1; cases h1
    · have hxf : x = f := Option.some.inj (hx.symm.trans hf)
      subst hxf
      exact hrest
  have fail0 := no_pair_of_both_none (tail_none h012 hf0) (tail_none h021 hf0)
  have fail1 := no_pair_of_both_none (tail_none h102 hf1) (tail_none h120 hf1)
  have fail2 := no_pair_of_both_none (tail_none h201 hf2) (tail_none h210 hf2)
  have hb0 : f0 = b ∨ f0 = c := by
    by_contra hcon2
    push_neg at hcon2
    exact hbc (fail0 b hb (by simp [Ne.symm hcon2.1]) c hc (by simp [Ne.symm hcon2.2]))
  have hb1 : f1 = a ∨ f1 = c := by
    by_contra hcon2
    push_neg at hcon2
    exact hac (fail1 a ha (by simp [Ne.symm hcon2.1]) c hc (by simp [Ne.symm hcon2.2]))
  have hb2 : f2 = a ∨ f2 = b := by
    by_contra hcon2
    push_neg at hcon2
    exact hab (fail2 a ha (by simp [Ne.symm hcon2.1]) b hb (by simp [Ne.symm hcon2.2]))
  rcases hb0 with rfl | rfl
  · rcases hb1 with rfl | rfl
    · exact hac (fail0 f1 hf1m (by simp [hab]) c hc (by simp [Ne.symm hbc]))
    · rcases hb2 with rfl | rfl
      · exact hab ((fail1 f0 hf0m (by simp [hbc]) f2 hf2m (by simp [hac])).symm)
      · exact hab (fail1 a ha (by simp [hac]) f2 hf2m (by simp [hbc]))
  · rcases hb1 with rfl | rfl
    · rcases hb2 with rfl | rfl
      · exact hab ((fail0 b hb (by simp [hbc]) f2 hf2m (by simp [hac])).symm)
      · exact hab (fail0 f1 hf1m (by simp [hac]) f2 hf2m (by simp [hbc]))
    · rcases hb2 with rfl | rfl
      · exact hab ((fail0 b hb (by simp [hbc]) f2 hf2m (by simp [hac])).symm)
      · exact hab (fail1 a ha (by simp [hac]) f2 hf2m (by simp [hbc]))

/-- C2 (counterexample) — at a zero-item request the claimed equivalence
fails: the empty system of distinct representatives exists vacuously, yet
`allocate` returns the empty list (its failure sentinel, cf. C9). -/
theorem allocate_sdr_iff_cex :
    ((⟨3, [], []⟩ : SchedRequest).resources.length ≤ 3) ∧
      ¬ ((allocate [] ⟨3, [], []⟩).1 ≠ [] ↔
          HasSDR ((⟨3, [], []⟩ : SchedRequest).resources.map (match_subset []))) := by
  refine ⟨by decide, fun hiff => ?_⟩
  have hsdr : HasSDR (((⟨3, [], []⟩ : SchedRequest).resources).map (match_subset [])) := by
    refine ⟨fun _ => "", ?_, ?_⟩
    · intro i hi
      simp at hi
    · intro i j hi _ _
      simp at hi
  exact hiff.mpr hsdr rfl

/-- C2 (amended) — for one to three pattern items, `allocate` returns a
non-empty allocation exactly when a system of distinct representatives exists
across the per-item sets of AVAILABLE matching resources. -/
theorem allocate_sdr_iff (pool : Pool) (request : SchedRequest)
    (h1 : 1 ≤ request.resources.length) (h3 : request.resources.length ≤ 3) :
    (allocate pool request).1 ≠ [] ↔
      HasSDR (request.resources.map (match_subset pool)) := by
  have hsetslen : (request.resources.map (match_subset pool)).length =
      request.resources.length := by simp
  constructor
  · intro h
    obtain ⟨hml, p, pairs, hpmem, hg, hfst⟩ := allocate_success_elim h
    have hperm := lexPerms_perm hpmem
    have hkeys := greedyAssign_keys hg
    have hmlmap := match_list_ne_sentinel hml
    have hassign : ∀ i, i < request.resources.length → ∃ nm, (i, nm) ∈ pairs := by
      intro i hi
      have hmem : i ∈ pairs.map Prod.fst := by
        rw [hkeys]
        exact hperm.mem_iff.mpr (List.mem_range.mpr hi)
      obtain ⟨q, hq, hq1⟩ := List.mem_map.mp hmem
      refine ⟨q.2, ?_⟩
      rw [show (i, q.2) = q from by rw [← hq1]]
      exact hq
    have hch : ∀ i : Nat, ∃ nm : String,
        i < request.resources.length → (i, nm) ∈ pairs := by
      intro i
      by_cases hi : i < request.resources.length
      · obtain ⟨nm, hnm⟩ := hassign i hi
        exact ⟨nm, fun _ => hnm⟩
      · exact ⟨"", fun hc => absurd hc hi⟩
    choose ch hchmem using hch
    refine ⟨ch, ?_, ?_⟩
    · intro i hi
      have hmem := hchmem i (by rw [← hsetslen]; exact hi)
      have := (greedyAssign_mem hg (i, ch i) hmem).1
      rw [hmlmap] at this
      exact this
    · intro i j hi hj hij
      have hmi := hchmem i (by rw [← hsetslen]; exact hi)
      have hmj := hchmem j (by rw [← hsetslen]; exact hj)
      have hpq : ((i, ch i) : Nat × String) = (j, ch j) :=
        List.inj_on_of_nodup_map (greedyAssign_nodup hg) hmi hmj hij
      exact congrArg Prod.fst hpq
  · rintro ⟨ch, hchmem, hchinj⟩
    have hml : match_list pool request.resources ≠ [] := by
      intro hc
      simp only [match_list] at hc
      by_cases hany : (request.resources.map (match_subset pool)).any List.isEmpty
      · obtain ⟨s, hs, hse⟩ := List.any_eq_true.mp hany
        obtain ⟨i, hi, hival⟩ := List.mem_iff_getElem.mp hs
        have hchi := hchmem i hi
        rw [getD_lt hi, hival, List.isEmpty_iff.mp hse] at hchi
        cases hchi
      · rw [if_neg hany] at hc
        rw [hc] at hsetslen
        simp at hsetslen
        omega
    have hmlmap := match_list_ne_sentinel hml
    have hunion : request.resources.length ≤
        (match_list pool request.resources).flatten.dedup.length := by
      have hnodup : ((List.range request.resources.length).map ch).Nodup := by
        refine List.Nodup.map_on ?_ (List.nodup_range _)
        intro i hi j hj hij
        exact hchinj i j (by rw [hsetslen]; exact List.mem_range.mp hi)
          (by rw [hsetslen]; exact List.mem_range.mp hj) hij
      have hsub : ∀ x ∈ (List.range request.resources.length).map ch,
          x ∈ (match_list pool request.resources).flatten.dedup := by
        intro x hx
        obtain ⟨i, hi, rfl⟩ := List.mem_map.mp hx
        have hmem := hchmem i (by rw [hsetslen]; exact List.mem_range.mp hi)
        rw [← hmlmap] at hmem
        exact List.mem_dedup.mpr (mem_getD_flatten hmem)
      have := nodup_sub_length hnodup hsub
      simpa using this
    refine allocate_success_intro h1 h3 hml hunion ?_
    rw [hmlmap]
    have hcases : request.resources.length = 1 ∨ request.resources.length = 2 ∨
        request.resources.length = 3 := by omega
    rcases hcases with hv | hv | hv
    · obtain ⟨S0, hS⟩ := List.length_eq_one.mp (hsetslen.trans hv)
      rw [hv, hS]
      refine greedy1set (a := ch 0) ?_
      have := hchmem 0 (by rw [hsetslen, hv]; omega)
      rw [hS] at this
      exact this
    · obtain ⟨S0, S1, hS⟩ := List.length_eq_two.mp (hsetslen.trans hv)
      rw [hv, hS]
      have hm0 := hchmem 0 (by rw [hsetslen, hv]; omega)
      have hm1 := hchmem 1 (by rw [hsetslen, hv]; omega)
      rw [hS] at hm0 hm1
      refine greedy2sets (a := ch 0) (b := ch 1) hm0 hm1 ?_
      intro hc
      have := hchinj 0 1 (by rw [hsetslen, hv]; omega) (by rw [hsetslen, hv]; omega) hc
      cases this
    · obtain ⟨S0, S1, S2, hS⟩ := List.length_eq_three.mp (hsetslen.trans hv)
      rw [hv, hS]
      have hm0 := hchmem 0 (by rw [hsetslen, hv]; omega)
      have hm1 := hchmem 1 (by rw [hsetslen, hv]; omega)
      have hm2 := hchmem 2 (by rw [hsetslen, hv]; omega)
      rw [hS] at hm0 hm1 hm2
      refine greedy3sets (a := ch 0) (b := ch 1) (c := ch 2) hm0 hm1 hm2 ?_ ?_ ?_
      · intro hc
        have := hchinj 0 1 (by rw [hsetslen, hv]; omega) (by rw [hsetslen, hv]; omega) hc
        cases this
      · intro hc
        have := hchinj 0 2 (by rw [hsetslen, hv]; omega) (by rw [hsetslen, hv]; omega) hc
        cases this
      · intro hc
        have := hchinj 1 2 (by rw [hsetslen, hv]; omega) (by rw [hsetslen, hv]; omega) hc
        cases this

/-- Witness for the amended C2 at a two-item request needing the non-identity
permutation. -/
theorem allocate_sdr_iff_witness :
    (1 ≤ exReqPermute.resources.length ∧ exReqPermute.resources.length ≤ 3) ∧
      ((allocate exPoolAB exReqPermute).1 ≠ [] ↔
        HasSDR (exReqPermute.resources.map (match_subset exPoolAB))) :=
  ⟨⟨by decide, by decide⟩, allocate_sdr_iff exPoolAB exReqPermute (by decide) (by decide)⟩

/-! Rolling a committed allocation back (C6) and the release owner check
(C10). -/

theorem poolModify_id {P : Pool} {nm : String} {f : PoolResource → PoolResource}
    (h : ∀ r ∈ P, r.platform_info = nm → f r = r) : poolModify P nm f = P := by
  unfold poolModify
  rw [List.map_congr_left (g := id) ?_, List.map_id]
  intro r hr
  by_cases hp : r.platform_info = nm
  · rw [if_pos hp]
    exact h r hr hp
  · rw [if_neg hp]
    rfl

theorem poolModify_comp {P : Pool} {nm : String} {f g : PoolResource → PoolResource}
    (hf : ∀ r, (f r).platform_info = r.platform_info) :
    poolModify (poolModify P nm f) nm g = poolModify P nm (fun r => g (f r)) := by
  unfold poolModify
  rw [List.map_map]
  apply List.map_congr_left
  intro r _
  by_cases hp : r.platform_info = nm
  · simp [Function.comp, hp, hf]
  · simp [Function.comp, hp]

theorem poolModify_comm {P : Pool} {n1 n2 : String} {f g : PoolResource → PoolResource}
    (hf : ∀ r, (f r).platform_info = r.platform_info)
    (hg : ∀ r, (g r).platform_info = r.platform_info)
    (hne : n1 ≠ n2) :
    poolModify (poolModify P n1 f) n2 g = poolModify (poolModify P n2 g) n1 f := by
  unfold poolModify
  rw [List.map_map, List.map_map]
  apply List.map_congr_left
  intro r _
  by_cases h1 : r.platform_info = n1
  · have h2 : r.platform_info ≠ n2 := fun hc => hne (h1 ▸ hc ▸ rfl)
    simp [Function.comp, h1, h2, hf, hg, hne, Ne.symm hne]
  · by_cases h2 : r.platform_info = n2
    · simp [Function.comp, h1, h2, hf, hg, hne, Ne.symm hne]
    · simp [Function.comp, h1, h2]

theorem allocateTo_platform (uid : Nat) (r : PoolResource) :
    (r.allocateTo uid).platform_info = r.platform_info := rfl

theorem releaseBy_platform (who : Option Nat) (r : PoolResource) :
    (r.releaseBy who).platform_info = r.platform_info := by
  unfold PoolResource.releaseBy
  by_cases h : who = none ∨ who = r.owner
  · rw [if_pos h]
  · rw [if_neg h]

theorem commitAlloc_modify_comm {uid : Nat} {nm : String}
    {g : PoolResource → PoolResource}
    (hg : ∀ r, (g r).platform_info = r.platform_info) :
    ∀ (ms : List ResourceMsg) (P : Pool), nm ∉ ms.map (fun m => m.platform_info) →
      poolModify (commitAlloc uid P ms) nm g = commitAlloc uid (poolModify P nm g) ms := by
  intro ms
  induction ms with
  | nil => intro P _; rfl
  | cons m ms2 ih =>
    intro P hnm
    rw [List.map_cons, List.mem_cons] at hnm
    push_neg at hnm
    show poolModify (commitAlloc uid (poolModify P m.platform_info
        (fun r => r.allocateTo uid)) ms2) nm g = _
    rw [ih _ hnm.2]
    rw [poolModify_comm (allocateTo_platform uid) hg (fun hc => hnm.1 hc.symm)]
    rfl

theorem release_commit_cancel {uid : Nat} :
    ∀ (ms : List ResourceMsg) (P : Pool),
      (ms.map (fun m => m.platform_info)).Nodup →
      (∀ m ∈ ms, ∀ r ∈ P, r.platform_info = m.platform_info →
        r.status = ResStatus.available ∧ r.owner = none) →
      release_resources (commitAlloc uid P ms) ms = P := by
  intro ms
  induction ms with
  | nil => intro P _ _; rfl
  | cons m ms2 ih =>
    intro P hnd hav
    rw [List.map_cons, List.nodup_cons] at hnd
    show release_resources (poolModify (commitAlloc uid (poolModify P m.platform_info
        (fun r => r.allocateTo uid)) ms2) m.platform_info
        (fun r => r.releaseBy none)) ms2 = P
    rw [commitAlloc_modify_comm (releaseBy_platform none) ms2 _ hnd.1]
    rw [poolModify_comp (allocateTo_platform uid)]
    rw [poolModify_id ?_]
    · refine ih P hnd.2 ?_
      intro m2 hm2 r hr hp
      exact hav m2 (List.mem_cons_of_mem _ hm2) r hr hp
    · intro r hr hp
      obtain ⟨h1, h2⟩ := hav m (List.mem_cons_self _ _) r hr hp
      cases r with
      | mk pi ra st ow =>
        simp only at h1 h2
        subst h1
        subst h2
        rfl

theorem allocate_permutation_success_snd {pool : Pool} {perm : List Nat}
    {request : SchedRequest} {ms : List (List String)}
    (h : (allocate_permutation pool perm request ms).1 ≠ []) :
    (allocate_permutation pool perm request ms).2 =
      commitAlloc request.uuid pool (allocate_permutation pool perm request ms).1 := by
  unfold allocate_permutation at h ⊢
  cases hg : greedyAssign perm ms [] with
  | none => rw [hg] at h; exact absurd rfl h
  | some pairs => rfl

/-- On success the returned pool is the input pool with the returned
allocation committed to the request. -/
theorem allocate_success_snd {pool : Pool} {request : SchedRequest}
    (h : (allocate pool request).1 ≠ []) :
    (allocate pool request).2 =
      commitAlloc request.uuid pool (allocate pool request).1 := by
  unfold allocate at h ⊢
  by_cases h1 : (match_list pool request.resources).isEmpty
  · rw [if_pos h1] at h; exact absurd rfl h
  · rw [if_neg h1] at h ⊢
    simp only at h ⊢
    by_cases h2 : (match_list pool request.resources).flatten.dedup.length <
        request.resources.length
    · rw [if_pos h2] at h; exact absurd rfl h
    · rw [if_neg h2] at h ⊢
      by_cases h3 : (allocate_permutation pool (List.range request.resources.length)
          request (match_list pool request.resources)).1.isEmpty
      · rw [if_neg (by simp [h3])] at h ⊢
        by_cases h4 : request.resources.length > 3
        · rw [if_pos h4] at h; exact absurd rfl h
        · rw [if_neg h4] at h ⊢
          obtain ⟨p, _, heq, hne⟩ := tryPerms_success_elim h
          rw [← heq]
          exact allocate_permutation_success_snd hne
      · rw [if_pos (by simp [h3])] at h ⊢
        exact allocate_permutation_success_snd (by simpa [List.isEmpty_iff] using h3)

/-- Releasing a successful allocation restores the pool exactly, provided the
pool keys are unique and AVAILABLE resources carry no owner. -/
theorem allocate_rollback {pool : Pool} {request : SchedRequest}
    (hkeys : (pool.map (fun r => r.platform_info)).Nodup)
    (hinv : ∀ r ∈ pool, r.status = ResStatus.available → r.owner = none)
    (hne : (allocate pool request).1 ≠ []) :
    release_resources (allocate pool request).2 (allocate pool request).1 = pool := by
  obtain ⟨hlen, hidx, hnodup⟩ := allocate_success_shape pool request hne
  rw [allocate_success_snd hne]
  refine release_commit_cancel (allocate pool request).1 pool hnodup ?_
  intro m hm r hr hp
  obtain ⟨i, hi, hival⟩ := List.mem_iff_getElem.mp hm
  have hilen : i < request.resources.length := by rw [← hlen]; exact hi
  obtain ⟨nm, hval, hmatch⟩ := hidx i hilen
  rw [getD_lt hi, hival] at hval
  have hmnm : m.platform_info = nm := by rw [hval]
  obtain ⟨r0, hr0, hr0p⟩ := List.mem_map.mp hmatch
  rw [List.mem_filter] at hr0
  have hr0st : r0.status = ResStatus.available := by
    have := hr0.2
    rw [Bool.and_eq_true] at this
    simpa using this.1
  have hreq : r = r0 := by
    refine List.inj_on_of_nodup_map hkeys hr hr0.1 ?_
    rw [hr0p, hp, hmnm]
  rw [hreq]
  exact ⟨hr0st, hinv r0 hr0.1 hr0st⟩

/-- C10 — `release_resources` releases with no owner argument, so a resource
is released even when its recorded owner differs; `release_request` passes the
request's uuid, so it releases the resource exactly when the recorded owner
matches. -/
theorem release_owner_discipline (pl : Pool) (r : PoolResource) (msg : ResourceMsg)
    (hmem : r ∈ pl) (hpi : r.platform_info = msg.platform_info)
    (hst : r.status = ResStatus.allocated) (u w : Nat) (hw : r.owner = some w)
    (hne : u ≠ w) :
    ({ r with status := ResStatus.available, owner := none } ∈
        release_resources pl [msg]) ∧
      r ∈ release_request pl ⟨u, [], [msg]⟩ ∧
      ({ r with status := ResStatus.available, owner := none } ∈
        release_request pl ⟨w, [], [msg]⟩) := by
  have hv1 : r.releaseBy none = { r with status := ResStatus.available, owner := none } := by
    unfold PoolResource.releaseBy
    rw [if_pos (Or.inl rfl), hst]
    simp
  have hv2 : r.releaseBy (some u) = r := by
    unfold PoolResource.releaseBy
    rw [if_neg ?_]
    rintro (hc | hc)
    · cases hc
    · rw [hw] at hc
      exact hne (Option.some.inj hc)
  have hv3 : r.releaseBy (some w) =
      { r with status := ResStatus.available, owner := none } := by
    unfold PoolResource.releaseBy
    rw [if_pos (Or.inr (by rw [hw])), hst]
    simp
  refine ⟨?_, ?_, ?_⟩
  · show _ ∈ poolModify pl msg.platform_info (fun x => x.releaseBy none)
    unfold poolModify
    have hmap := List.mem_map_of_mem
      (fun x => if x.platform_info = msg.platform_info then x.releaseBy none else x) hmem
    simp only at hmap
    rw [if_pos hpi, hv1] at hmap
    exact hmap
  · show _ ∈ poolModify pl msg.platform_info (fun x => x.releaseBy (some u))
    unfold poolModify
    have hmap := List.mem_map_of_mem
      (fun x => if x.platform_info = msg.platform_info then x.releaseBy (some u) else x) hmem
    simp only at hmap
    rw [if_pos hpi, hv2] at hmap
    exact hmap
  · show _ ∈ poolModify pl msg.platform_info (fun x => x.releaseBy (some w))
    unfold poolModify
    have hmap := List.mem_map_of_mem
      (fun x => if x.platform_info = msg.platform_info then x.releaseBy (some w) else x) hmem
    simp only at hmap
    rw [if_pos hpi, hv3] at hmap
    exact hmap

/-- Witness for C10: a resource allocated to request 3 is freed by
`release_resources`, kept by `release_request` from request 9, freed by
`release_request` from request 3. -/
theorem release_owner_discipline_witness :
    (⟨"rocon:/x", "r", ResStatus.allocated, some 3⟩ ∈
        ([⟨"rocon:/x", "r", ResStatus.allocated, some 3⟩] : Pool)) ∧
      ((⟨"rocon:/x", "r", ResStatus.available, none⟩ : PoolResource) ∈
          release_resources [⟨"rocon:/x", "r", ResStatus.allocated, some 3⟩]
            [⟨"rocon:/x", "r"⟩] ∧
        (⟨"rocon:/x", "r", ResStatus.allocated, some 3⟩ : PoolResource) ∈
          release_request [⟨"rocon:/x", "r", ResStatus.allocated, some 3⟩]
            ⟨9, [], [⟨"rocon:/x", "r"⟩]⟩ ∧
        (⟨"rocon:/x", "r", ResStatus.available, none⟩ : PoolResource) ∈
          release_request [⟨"rocon:/x", "r", ResStatus.allocated, some 3⟩]
            ⟨3, [], [⟨"rocon:/x", "r"⟩]⟩) :=
  ⟨by decide,
    release_owner_discipline [⟨"rocon:/x", "r", ResStatus.allocated, some 3⟩]
      ⟨"rocon:/x", "r", ResStatus.allocated, some 3⟩ ⟨"rocon:/x", "r"⟩
      (by decide) rfl rfl 9 3 rfl (by decide)⟩

end ResourcePool

namespace SchedulerNode

/-- C3 — when the ready head's allocation comes back empty, dispatch pushes
the same element (priority and sequence intact) back onto the ready queue,
restoring the queue exactly, and stops: no later element is attempted and the
pool is untouched. -/
theorem dispatch_head_blocking (s : SchedState) (e : QueueElement)
    (rest : List QueueElement) (hr : s.ready_queue = e :: rest)
    (hsorted : s.ready_queue.Pairwise (fun a b => a.keyLeB b = true))
    (huuid : (s.ready_queue.map (fun x => x.request.uuid)).Nodup)
    (hfail : (ResourcePool.allocate s.pool e.request.toSched).1 = []) :
    (dispatch s).ready_queue = s.ready_queue ∧
      (dispatch s).attempted = [e.request.uuid] ∧
      (dispatch s).pool = s.pool := by
  unfold dispatch
  rw [hr] at hsorted huuid ⊢
  rw [List.pairwise_cons] at hsorted
  rw [List.map_cons, List.nodup_cons] at huuid
  unfold dispatchLoop
  simp only
  rw [if_pos (by simp [hfail])]
  refine ⟨?_, rfl, ?_⟩
  · show pqAdd rest e = e :: rest
    unfold pqAdd
    rw [if_neg ?_]
    · cases rest with
      | nil => rfl
      | cons x xs =>
        unfold insertSorted
        rw [if_pos (hsorted.1 x (List.mem_cons_self _ _))]
    · intro hc
      simp only [List.any_eq_true, beq_iff_eq] at hc
      obtain ⟨x, hx, hxe⟩ := hc
      exact huuid.1 (List.mem_map.mpr ⟨x, hx, hxe⟩)
  · exact ResourcePool.allocate_fail_pool_unchanged s.pool e.request.toSched hfail

/-- Witness for C3: with roberto present and marvin absent, the head wanting
marvin blocks the pass; the element behind it, although satisfiable, is not
attempted. -/
theorem dispatch_head_blocking_witness :
    ((ResourcePool.allocate exHeadBlockState.pool exElemMarvin.request.toSched).1 = [] ∧
      ((dispatch exHeadBlockState).ready_queue = exHeadBlockState.ready_queue ∧
        (dispatch exHeadBlockState).attempted = [exElemMarvin.request.uuid] ∧
        (dispatch exHeadBlockState).pool = exHeadBlockState.pool)) :=
  ⟨by decide,
    dispatch_head_blocking exHeadBlockState exElemMarvin [exElemRoberto] rfl
      (by decide) (by decide) (by decide)⟩

/-- C6 — when the head allocation succeeds but `grant` raises
`TransitionError`, the just-allocated resources are released so the pool is
exactly rolled back, and the loop continues with the next ready element. -/
theorem dispatch_grant_rollback (s : SchedState) (e : QueueElement)
    (rest : List QueueElement) (hr : s.ready_queue = e :: rest)
    (hkeys : (s.pool.map (fun r => r.platform_info)).Nodup)
    (hinv : ∀ r ∈ s.pool, r.status = ResStatus.available → r.owner = none)
    (hok : (ResourcePool.allocate s.pool e.request.toSched).1 ≠ [])
    (hgrant : e.request.grant_ok = false) :
    dispatch s = dispatchLoop rest s.pool
      (notifAdd s.notification_set e.requester_id) [e.request.uuid] := by
  unfold dispatch
  rw [hr]
  conv_lhs => unfold dispatchLoop
  simp only
  rw [if_neg (by simpa [List.isEmpty_iff] using hok)]
  rw [show e.request.grantE (ResourcePool.allocate s.pool e.request.toSched).1 =
      Except.error ⟨⟩ from by simp [ReqHandle.grantE, hgrant]]
  simp only
  rw [ResourcePool.allocate_rollback hkeys hinv hok]
  rfl

/-- Witness for C6: roberto is granted-then-rolled-back for the cancelled
head, then granted to the next element. -/
theorem dispatch_grant_rollback_witness :
    (((ResourcePool.allocate exGrantFailState.pool
          exElemGrantFail.request.toSched).1 ≠ [] ∧
        exElemGrantFail.request.grant_ok = false) ∧
      dispatch exGrantFailState = dispatchLoop [exElemRoberto] exGrantFailState.pool
        (notifAdd exGrantFailState.notification_set exElemGrantFail.requester_id)
        [exElemGrantFail.request.uuid]) :=
  ⟨⟨by decide, rfl⟩,
    dispatch_grant_rollback exGrantFailState exElemGrantFail [exElemRoberto] rfl
      (by decide) (by decide) (by decide) rfl⟩

/-- C4 — the `wait(UNAVAILABLE)` call made when `reschedule` demotes a ready
head is not wrapped in try/except (unlike the `wait` in `queue` and the
`grant` in `dispatch`): when the requester has concurrently advanced the
request, the `TransitionError` propagates out of the periodic callback instead
of being absorbed. -/
theorem reschedule_wait_error_escapes :
    exBlockedElem.request.wait_ok = false ∧
      reschedule exWaitErrState = Except.error ⟨⟩ :=
  ⟨rfl, rfl⟩

end SchedulerNode

end SimpleScheduler
